import Mathlib

/-!
Verification development for the FRED economic-indicators ETL pipeline
(`src/etl_pipeline.py`).  The transform stage (`FredETLPipeline.transform_data`)
is embedded shallowly: pandas float columns become lists over an idealized
IEEE value domain `FVal` (exact rationals plus the special values plus-infinity,
minus-infinity and NaN, which pandas uses as its missing marker), and each
column assignment of the source becomes one Lean definition.  Machine floats
are idealized to exact rational arithmetic; the infinity and NaN propagation
rules of IEEE arithmetic, which the source relies on (division by a zero base,
`std` of a degenerate series) are kept.
-/

namespace EconDashboard

/-- Idealized pandas/NumPy float value: an exact rational, plus-infinity,
minus-infinity, or NaN.  NaN doubles as the missing-value marker, exactly as
in pandas. -/
inductive FVal where
  | fin : ℚ → FVal
  | pinf : FVal
  | ninf : FVal
  | nan : FVal
deriving DecidableEq, Repr

namespace FVal

/-- NaN test (the pandas missing-value test). -/
def isNan : FVal → Bool
  | nan => true
  | _ => false

/-- Positive-infinity test. -/
def isPinf : FVal → Bool
  | pinf => true
  | _ => false

/-- Negative-infinity test. -/
def isNinf : FVal → Bool
  | ninf => true
  | _ => false

/-- Infinity test (either sign). -/
def isInf (v : FVal) : Bool := v.isPinf || v.isNinf

/-- IEEE addition on exact values: NaN propagates, opposite infinities give
NaN, an infinity absorbs finite summands. -/
def add : FVal → FVal → FVal
  | fin a, fin b => fin (a + b)
  | fin _, pinf => pinf
  | fin _, ninf => ninf
  | pinf, fin _ => pinf
  | ninf, fin _ => ninf
  | pinf, pinf => pinf
  | ninf, ninf => ninf
  | pinf, ninf => nan
  | ninf, pinf => nan
  | nan, _ => nan
  | _, nan => nan

/-- IEEE negation. -/
def neg : FVal → FVal
  | fin a => fin (-a)
  | pinf => ninf
  | ninf => pinf
  | nan => nan

/-- IEEE subtraction. -/
def sub (a b : FVal) : FVal := a.add b.neg

/-- IEEE multiplication: infinity times zero is NaN, otherwise signs
multiply. -/
def mul : FVal → FVal → FVal
  | fin a, fin b => fin (a * b)
  | fin a, pinf => if 0 < a then pinf else if a < 0 then ninf else nan
  | fin a, ninf => if 0 < a then ninf else if a < 0 then pinf else nan
  | pinf, fin b => if 0 < b then pinf else if b < 0 then ninf else nan
  | ninf, fin b => if 0 < b then ninf else if b < 0 then pinf else nan
  | pinf, pinf => pinf
  | pinf, ninf => ninf
  | ninf, pinf => ninf
  | ninf, ninf => pinf
  | nan, _ => nan
  | _, nan => nan

/-- IEEE division: a nonzero finite value divided by zero is a signed
infinity, zero by zero is NaN, finite by infinite is zero, infinity by
infinity is NaN.  (There is no negative zero in the exact domain, so the
zero divisor counts as positive, as NumPy does for `+0.0`.) -/
def div : FVal → FVal → FVal
  | fin a, fin b =>
      if b = 0 then (if 0 < a then pinf else if a < 0 then ninf else nan)
      else fin (a / b)
  | fin _, pinf => fin 0
  | fin _, ninf => fin 0
  | pinf, fin b => if b < 0 then ninf else pinf
  | ninf, fin b => if b < 0 then pinf else ninf
  | pinf, pinf => nan
  | pinf, ninf => nan
  | ninf, pinf => nan
  | ninf, ninf => nan
  | nan, _ => nan
  | _, nan => nan

/-- IEEE strict ordering as used by `Series.rank`: NaN compares false with
everything, minus-infinity below all finite values, plus-infinity above. -/
def flt : FVal → FVal → Bool
  | fin a, fin b => decide (a < b)
  | fin _, pinf => true
  | ninf, fin _ => true
  | ninf, pinf => true
  | _, _ => false

/-- IEEE equality as used by the rank tie detection: NaN equals nothing,
including itself. -/
def feq : FVal → FVal → Bool
  | fin a, fin b => decide (a = b)
  | pinf, pinf => true
  | ninf, ninf => true
  | _, _ => false

/-- The post-processing step of `transform_data` (line 203 of the source):
`df.replace([np.inf, -np.inf], np.nan)` on one cell. -/
def replaceInf : FVal → FVal
  | pinf => nan
  | ninf => nan
  | fin a => fin a
  | nan => nan

end FVal

/-- Sum of a list of float values (pandas summation over a window or a
column). -/
def fsum (l : List FVal) : FVal := l.foldr FVal.add (FVal.fin 0)

/-- Mean with pandas `skipna=True` semantics: NaN entries are excluded; the
mean of no valid entries is NaN. -/
def nmean (l : List FVal) : FVal :=
  let xs := l.filter (fun v => !v.isNan)
  if xs.isEmpty then FVal.nan else (fsum xs).div (FVal.fin (xs.length : ℚ))

/-- Embedding of `df['value'].pct_change(periods=L) * 100` (source lines
177, 182, 184): pandas computes `value / value.shift(L) - 1`, which is NaN
for the first `L` rows.  The multiplication by 100 is included.  (The input
values carry no NaN after the `dropna` in `extract_series`, so the default
fill of the shifted series is a no-op and is not modelled.) -/
def pctChange100 (L : ℕ) (vs : List FVal) : List FVal :=
  (List.range vs.length).map fun i =>
    if i < L then FVal.nan
    else (((vs.getD i FVal.nan).div (vs.getD (i - L) FVal.nan)).sub
            (FVal.fin 1)).mul (FVal.fin 100)

/-- Embedding of `df['value'].rolling(window=w, min_periods=1).mean()`
(source lines 187, 188): the trailing window of width at most `w` ending at
row `i`, averaged with NaN entries excluded; NaN when the window holds no
valid entry. -/
def rollingMean (w : ℕ) (vs : List FVal) : List FVal :=
  (List.range vs.length).map fun i => nmean ((vs.take (i + 1)).drop (i + 1 - w))

/-- Embedding of the sample variance underlying `df['value'].std()` (source
line 192, pandas default `ddof=1`, `skipna=True`): NaN when fewer than two
valid entries, else the sum of squared deviations from the mean divided by
`n - 1`.  The standard deviation itself is the square root of this value;
the source only ever uses it through the test `std_val > 0` and as the
z-score denominator, both of which are expressed below in terms of the
variance. -/
def sampleVar (vs : List FVal) : FVal :=
  let xs := vs.filter (fun v => !v.isNan)
  if xs.length ≤ 1 then FVal.nan
  else
    let m := (fsum xs).div (FVal.fin (xs.length : ℚ))
    (fsum (xs.map fun x => (x.sub m).mul (x.sub m))).div
      (FVal.fin ((xs.length - 1 : ℕ) : ℚ))

/-- Embedding of the branch test `if std_val > 0:` (source line 193).  Since
`std = sqrt(variance)`, the float comparison `std > 0` holds exactly when the
variance is a positive rational (or positive infinity); it is false when the
variance is NaN (fewer than two valid entries, or infinite inputs), zero, or
negative (square root NaN). -/
def stdPos (vs : List FVal) : Bool :=
  match sampleVar vs with
  | FVal.fin q => decide (0 < q)
  | FVal.pinf => true
  | _ => false

/-- A z-score cell.  The z-score `(value - mean) / std` is irrational in
general (the standard deviation is a square root), so the cell is kept in
exact symbolic form: `ofStd num variance` denotes `num / sqrt(variance)`;
`zero` denotes the literal 0 assigned by the `else` branch of the source;
`missing` denotes NaN (used by the infinity-replacement step). -/
inductive ZVal where
  | zero : ZVal
  | missing : ZVal
  | ofStd : FVal → FVal → ZVal
deriving DecidableEq, Repr

namespace ZVal

/-- Whether a z-score cell denotes a signed infinity, following the IEEE
denotation of `num / sqrt(variance)`: with a positive finite variance the
quotient is infinite exactly when the numerator is; with zero variance the
standard deviation is zero and any nonzero non-NaN numerator divided by it is
infinite; with negative, infinite, or NaN variance the quotient is never an
infinity (it is NaN or zero). -/
def isInf : ZVal → Bool
  | zero => false
  | missing => false
  | ofStd num variance =>
    match variance with
    | FVal.fin q =>
      if 0 < q then num.isInf
      else if q = 0 then !num.isNan && !(num.feq (FVal.fin 0))
      else false
    | _ => false

/-- The `df.replace([np.inf, -np.inf], np.nan)` step restricted to the
z-score column. -/
def replaceInf (z : ZVal) : ZVal := if z.isInf then ZVal.missing else z

end ZVal

/-- Embedding of the z-score column (source lines 190-196):
`(value - mean) / std` when `std > 0`, the literal 0 otherwise. -/
def zScoreCol (vs : List FVal) : List ZVal :=
  if stdPos vs then
    vs.map (fun v => ZVal.ofStd (v.sub (nmean vs)) (sampleVar vs))
  else
    vs.map (fun _ => ZVal.zero)

/-- Embedding of `df['value'].rank(pct=True) * 100` (source line 199):
average-rank tie-breaking, NaN entries keep NaN and are excluded from the
valid count used as the percentage denominator.  A value preceded (in order)
by `lt` smaller valid entries and tied with `eq` entries (itself included)
receives average rank `lt + (eq + 1) / 2`. -/
def rankPct100 (vs : List FVal) : List FVal :=
  vs.map fun v =>
    if v.isNan then FVal.nan
    else FVal.fin
      ((((vs.countP (fun u => u.flt v) : ℚ) +
          ((vs.countP (fun u => u.feq v) : ℚ) + 1) / 2) /
        ((vs.filter (fun v₂ => !v₂.isNan)).length : ℚ)) * 100)

/-- The enriched frame produced by `transform_data`: one list per column, in
row order. -/
structure Frame where
  observation_date : List ℕ
  value : List FVal
  mom_change : List FVal
  yoy_change : List FVal
  rolling_avg_3m : List FVal
  rolling_avg_12m : List FVal
  z_score : List ZVal
  percentile_rank : List FVal
deriving DecidableEq, Repr

/-- The year-over-year lag actually used by the source: 12 periods when the
series has more than 12 observations, 4 otherwise (source lines 181-184). -/
def yoyLag (n : ℕ) : ℕ := if 12 < n then 12 else 4

/-- Ordering of observations by date, used by
`df.sort_values('observation_date')` (source line 174).  Dates are embedded
as naturals; the model sorts stably (dates are unique per series, so
stability is immaterial). -/
def dateLe (a b : ℕ × FVal) : Prop := a.1 ≤ b.1

instance : DecidableRel dateLe := fun a b => inferInstanceAs (Decidable (a.1 ≤ b.1))

/-- The body of `transform_data` on a nonempty frame (source lines 174-203):
sort by date, derive the six metric columns, then replace every infinity in
the whole frame (the raw `value` column included) by NaN.  The
`observation_date` column is a date column, in which the numeric replacement
finds nothing to replace. -/
def mkFrame (obs : List (ℕ × FVal)) : Frame :=
  let s := List.insertionSort dateLe obs
  let vs := s.map Prod.snd
  let L := yoyLag s.length
  { observation_date := s.map Prod.fst
    value := vs.map FVal.replaceInf
    mom_change := (pctChange100 1 vs).map FVal.replaceInf
    yoy_change := (pctChange100 L vs).map FVal.replaceInf
    rolling_avg_3m := (rollingMean 3 vs).map FVal.replaceInf
    rolling_avg_12m := (rollingMean 12 vs).map FVal.replaceInf
    z_score := (zScoreCol vs).map ZVal.replaceInf
    percentile_rank := (rankPct100 vs).map FVal.replaceInf }

/-- Embedding of `FredETLPipeline.transform_data` (source lines 160-206):
`None` or an empty frame yields the empty-result signal `none`; otherwise the
enriched frame. -/
def transform_data : Option (List (ℕ × FVal)) → Option Frame
  | none => none
  | some obs => if obs.isEmpty then none else some (mkFrame obs)

/-- Embedding of `FredETLPipeline.process_series` (source lines 285-309) on
the data path: a failed extraction (`None`) returns failure; a `None` result
from the transform returns failure; otherwise the loads run and the series
succeeds.  The database loads are side effects with no bearing on the
returned outcome and are not modelled. -/
def process_series (fetched : Option (List (ℕ × FVal))) : Bool :=
  match fetched with
  | none => false
  | some df =>
    match transform_data (some df) with
    | none => false
    | some _ => true

/-- Embedding of the orchestration loop of `run_full_pipeline` (source lines
321-336): fold over the per-series fetch outcomes, tallying successes and
failures; a failed series increments the failure count and the loop
continues with the next series. -/
def run_full_pipeline (fetches : List (Option (List (ℕ × FVal)))) : ℕ × ℕ :=
  fetches.foldl
    (fun acc f => if process_series f then (acc.1 + 1, acc.2) else (acc.1, acc.2 + 1))
    (0, 0)

/-- Injection of an all-finite observation sequence (dates paired with exact
rational values) into the float domain.  The claims about ordinary numeric
inputs quantify over this image. -/
def finObs (obs : List (ℕ × ℚ)) : List (ℕ × FVal) := obs.map fun p => (p.1, FVal.fin p.2)

/-- Date ordering on rational-valued observations, mirror of `dateLe`. -/
def dateLeQ (a b : ℕ × ℚ) : Prop := a.1 ≤ b.1

instance : DecidableRel dateLeQ := fun a b => inferInstanceAs (Decidable (a.1 ≤ b.1))

/-- The value column of an observation sequence after the date sort, still in
the rational domain. -/
def sortedVals (obs : List (ℕ × ℚ)) : List ℚ :=
  (List.insertionSort dateLeQ obs).map Prod.snd

/-! ### Basic facts about the float domain -/

theorem fval_replaceInf_not_inf (v : FVal) : (FVal.replaceInf v).isInf = false := by
  cases v <;> rfl

theorem zval_replaceInf_not_inf (z : ZVal) : (ZVal.replaceInf z).isInf = false := by
  unfold ZVal.replaceInf
  by_cases h : z.isInf = true
  · rw [if_pos h]
    rfl
  · rw [if_neg h]
    simpa using h

theorem all_not_inf_map_replaceInf (l : List FVal) :
    ((l.map FVal.replaceInf).all fun v => !v.isInf) = true := by
  simp only [List.all_map, List.all_eq_true]
  intro v _
  simp [fval_replaceInf_not_inf]

theorem all_not_inf_map_zreplaceInf (l : List ZVal) :
    ((l.map ZVal.replaceInf).all fun z => !z.isInf) = true := by
  simp only [List.all_map, List.all_eq_true]
  intro z _
  simp [zval_replaceInf_not_inf]

/-! ### Lists of finite values -/

theorem isNan_fin (q : ℚ) : (FVal.fin q).isNan = false := rfl

theorem filter_nonan_map_fin (qs : List ℚ) :
    (qs.map FVal.fin).filter (fun v => !v.isNan) = qs.map FVal.fin := by
  induction qs with
  | nil => rfl
  | cons a t ih => simp [List.filter_cons, isNan_fin, ih]

theorem fsum_map_fin (qs : List ℚ) : fsum (qs.map FVal.fin) = FVal.fin qs.sum := by
  induction qs with
  | nil => rfl
  | cons a t ih => simp [fsum, List.foldr_cons] at ih ⊢; rw [ih]; rfl

theorem nmean_map_fin (qs : List ℚ) (h : qs ≠ []) :
    nmean (qs.map FVal.fin) = FVal.fin (qs.sum / qs.length) := by
  have hne : (qs.map FVal.fin).isEmpty = false := by
    cases qs with
    | nil => cases h rfl
    | cons a t => rfl
  have hlen : (qs.length : ℚ) ≠ 0 := by
    exact_mod_cast fun h0 => h (List.length_eq_zero.mp h0)
  unfold nmean
  simp only [filter_nonan_map_fin, fsum_map_fin, List.length_map, hne,
    Bool.false_eq_true, if_false]
  unfold FVal.div
  simp [hlen]

theorem map_replaceInf_map_fin (qs : List ℚ) :
    (qs.map FVal.fin).map FVal.replaceInf = qs.map FVal.fin := by
  induction qs with
  | nil => rfl
  | cons a t ih => simp [FVal.replaceInf, ih]

/-! ### Sorting commutes with the injection of rational values -/

theorem orderedInsert_finObs (a : ℕ × ℚ) (l : List (ℕ × ℚ)) :
    List.orderedInsert dateLe (a.1, FVal.fin a.2) (finObs l) =
      finObs (List.orderedInsert dateLeQ a l) := by
  induction l with
  | nil => rfl
  | cons b t ih =>
    show List.orderedInsert dateLe (a.1, FVal.fin a.2) ((b.1, FVal.fin b.2) :: finObs t) = _
    rw [List.orderedInsert, List.orderedInsert]
    by_cases h : dateLeQ a b
    · have h2 : dateLe (a.1, FVal.fin a.2) (b.1, FVal.fin b.2) := h
      simp [h, h2, finObs]
    · have h2 : ¬ dateLe (a.1, FVal.fin a.2) (b.1, FVal.fin b.2) := h
      simp [h, h2, finObs] at ih ⊢
      exact ih

theorem insertionSort_finObs (l : List (ℕ × ℚ)) :
    List.insertionSort dateLe (finObs l) = finObs (List.insertionSort dateLeQ l) := by
  induction l with
  | nil => rfl
  | cons a t ih =>
    show List.insertionSort dateLe ((a.1, FVal.fin a.2) :: finObs t) = _
    rw [List.insertionSort, List.insertionSort, ih]
    exact orderedInsert_finObs a _

theorem snd_finObs (l : List (ℕ × ℚ)) :
    (finObs l).map Prod.snd = (l.map Prod.snd).map FVal.fin := by
  simp [finObs]

theorem sorted_snd_finObs (obs : List (ℕ × ℚ)) :
    (List.insertionSort dateLe (finObs obs)).map Prod.snd =
      (sortedVals obs).map FVal.fin := by
  rw [insertionSort_finObs, snd_finObs, sortedVals]

theorem sorted_fst_finObs (obs : List (ℕ × ℚ)) :
    (List.insertionSort dateLe (finObs obs)).map Prod.fst =
      (List.insertionSort dateLeQ obs).map Prod.fst := by
  rw [insertionSort_finObs]
  simp [finObs]

theorem length_finObs (obs : List (ℕ × ℚ)) : (finObs obs).length = obs.length := by
  simp [finObs]

theorem length_sortedVals (obs : List (ℕ × ℚ)) : (sortedVals obs).length = obs.length := by
  simp [sortedVals, List.length_insertionSort]

/-! ### Indexed access into the columns -/

theorem option_map_some_eq {α β : Type} (f : α → β) (a : α) :
    (some a).map f = some (f a) := rfl

theorem getD_map_fin (qs : List ℚ) (j : ℕ) (hj : j < qs.length) :
    (qs.map FVal.fin).getD j FVal.nan = FVal.fin (qs.getD j 0) := by
  rw [List.getD_eq_getElem?_getD, List.getD_eq_getElem?_getD,
    List.getElem?_map, List.getElem?_eq_getElem hj]
  rfl

theorem div_fin_fin (a b : ℚ) :
    (FVal.fin a).div (FVal.fin b) =
      if b = 0 then (if 0 < a then FVal.pinf else if a < 0 then FVal.ninf else FVal.nan)
      else FVal.fin (a / b) := rfl

theorem pct_cell_zero_base (a : ℚ) :
    FVal.replaceInf ((((FVal.fin a).div (FVal.fin 0)).sub (FVal.fin 1)).mul
      (FVal.fin 100)) = FVal.nan := by
  rw [div_fin_fin, if_pos rfl]
  rcases lt_trichotomy a 0 with h | h | h
  · rw [if_neg (by linarith), if_pos h]
    decide
  · rw [if_neg (by simp [h]), if_neg (by simp [h])]
    decide
  · rw [if_pos h]
    decide

theorem pct_cell_fin (a b : ℚ) (hb : b ≠ 0) :
    FVal.replaceInf ((((FVal.fin a).div (FVal.fin b)).sub (FVal.fin 1)).mul
      (FVal.fin 100)) = FVal.fin ((a / b - 1) * 100) := by
  rw [div_fin_fin, if_neg hb]
  show FVal.fin ((a / b + -1) * 100) = FVal.fin ((a / b - 1) * 100)
  congr 1
  ring

theorem pctChange100_fin_getElem (L : ℕ) (qs : List ℚ) (i : ℕ) (hi : i < qs.length) :
    ((pctChange100 L (qs.map FVal.fin)).map FVal.replaceInf)[i]? =
      some (if i < L ∨ qs.getD (i - L) 0 = 0 then FVal.nan
            else FVal.fin ((qs.getD i 0 / qs.getD (i - L) 0 - 1) * 100)) := by
  have hiL : i - L < qs.length := lt_of_le_of_lt (Nat.sub_le i L) hi
  unfold pctChange100
  rw [List.getElem?_map, List.getElem?_map,
    List.getElem?_range (by simpa using hi)]
  simp only [option_map_some_eq]
  by_cases hL : i < L
  · simp [hL, FVal.replaceInf]
  · rw [if_neg hL, getD_map_fin qs i hi, getD_map_fin qs (i - L) hiL]
    by_cases h0 : qs.getD (i - L) 0 = 0
    · rw [if_pos (Or.inr h0), h0, pct_cell_zero_base]
    · rw [if_neg (by tauto), pct_cell_fin _ _ h0]

theorem rollingMean_fin_getElem (w : ℕ) (hw : 0 < w) (qs : List ℚ) (i : ℕ)
    (hi : i < qs.length) :
    ((rollingMean w (qs.map FVal.fin)).map FVal.replaceInf)[i]? =
      some (FVal.fin (((qs.take (i + 1)).drop (i + 1 - w)).sum /
        ((qs.take (i + 1)).drop (i + 1 - w)).length)) := by
  unfold rollingMean
  rw [List.getElem?_map, List.getElem?_map,
    List.getElem?_range (by simpa using hi)]
  simp only [option_map_some_eq]
  have hmaps : (((qs.map FVal.fin).take (i + 1)).drop (i + 1 - w)) =
      ((qs.take (i + 1)).drop (i + 1 - w)).map FVal.fin := by
    rw [List.map_drop, List.map_take]
  have hlen : ((qs.take (i + 1)).drop (i + 1 - w)).length =
      (i + 1) - (i + 1 - w) := by
    rw [List.length_drop, List.length_take]
    congr 1
    omega
  have hne : (qs.take (i + 1)).drop (i + 1 - w) ≠ [] := by
    intro hcontra
    rw [hcontra] at hlen
    simp at hlen
    omega
  rw [hmaps, nmean_map_fin _ hne]
  rfl

theorem flt_fin (a b : ℚ) : (FVal.fin a).flt (FVal.fin b) = decide (a < b) := rfl

theorem feq_fin (a b : ℚ) : (FVal.fin a).feq (FVal.fin b) = decide (a = b) := rfl

theorem countP_flt_map_fin (qs : List ℚ) (c : ℚ) :
    (qs.map FVal.fin).countP (fun u => u.flt (FVal.fin c)) =
      qs.countP (fun u => decide (u < c)) := by
  induction qs with
  | nil => rfl
  | cons a t ih => simp [List.countP_cons, ih, flt_fin]

theorem countP_feq_map_fin (qs : List ℚ) (c : ℚ) :
    (qs.map FVal.fin).countP (fun u => u.feq (FVal.fin c)) =
      qs.countP (fun u => decide (u = c)) := by
  induction qs with
  | nil => rfl
  | cons a t ih => simp [List.countP_cons, ih, feq_fin]

theorem rankPct100_fin_getElem (qs : List ℚ) (i : ℕ) (hi : i < qs.length) :
    ((rankPct100 (qs.map FVal.fin)).map FVal.replaceInf)[i]? =
      some (FVal.fin ((((qs.countP fun u => decide (u < qs.getD i 0)) : ℚ) +
        (((qs.countP fun u => decide (u = qs.getD i 0)) : ℚ) + 1) / 2) /
          (qs.length : ℚ) * 100)) := by
  have hget : (qs.map FVal.fin)[i]? = some (FVal.fin (qs.getD i 0)) := by
    rw [List.getElem?_map, List.getElem?_eq_getElem hi, List.getD_eq_getElem qs 0 hi]
    rfl
  unfold rankPct100
  rw [List.getElem?_map, List.getElem?_map, hget]
  simp only [option_map_some_eq]
  rw [if_neg (by simp [isNan_fin]), countP_flt_map_fin, countP_feq_map_fin,
    filter_nonan_map_fin]
  rw [List.length_map]
  rfl

/-! ### The z-score column in the degenerate (zero-variance) case -/

theorem sum_allEq (qs : List ℚ) (c : ℚ) (h : ∀ x ∈ qs, x = c) :
    qs.sum = qs.length * c := by
  induction qs with
  | nil => simp
  | cons a t ih =>
    have ha : a = c := h a (List.mem_cons_self a t)
    have ht : ∀ x ∈ t, x = c := fun x hx => h x (List.mem_cons_of_mem a hx)
    simp [ha, ih ht]
    ring

theorem fsum_allZero (l : List FVal) (h : ∀ v ∈ l, v = FVal.fin 0) :
    fsum l = FVal.fin 0 := by
  induction l with
  | nil => rfl
  | cons a t ih =>
    have ha : a = FVal.fin 0 := h a (List.mem_cons_self a t)
    have ht : ∀ v ∈ t, v = FVal.fin 0 := fun v hv => h v (List.mem_cons_of_mem a hv)
    show FVal.add a (fsum t) = FVal.fin 0
    rw [ha, ih ht]
    show FVal.fin (0 + 0) = FVal.fin 0
    norm_num

theorem sampleVar_allEq (qs : List ℚ) (c : ℚ) (h : ∀ x ∈ qs, x = c) :
    sampleVar (qs.map FVal.fin) =
      (if qs.length ≤ 1 then FVal.nan else FVal.fin 0) := by
  unfold sampleVar
  simp only [filter_nonan_map_fin, List.length_map]
  by_cases h1 : qs.length ≤ 1
  · rw [if_pos h1, if_pos h1]
  · rw [if_neg h1, if_neg h1]
    have hne : qs ≠ [] := by
      intro hq
      rw [hq] at h1
      simp at h1
    have hlen : (qs.length : ℚ) ≠ 0 := by
      exact_mod_cast fun h0 => hne (List.length_eq_zero.mp h0)
    have hmean : (fsum (qs.map FVal.fin)).div (FVal.fin (qs.length : ℚ)) =
        FVal.fin c := by
      rw [fsum_map_fin, div_fin_fin, if_neg hlen, sum_allEq qs c h]
      congr 1
      field_simp
    rw [hmean]
    have hzero : fsum ((qs.map FVal.fin).map fun x =>
        (x.sub (FVal.fin c)).mul (x.sub (FVal.fin c))) = FVal.fin 0 := by
      apply fsum_allZero
      intro v hv
      rcases List.mem_map.mp hv with ⟨x, hx, hxv⟩
      rcases List.mem_map.mp hx with ⟨q, hq, hqx⟩
      have hqc : q = c := h q hq
      rw [← hxv, ← hqx, hqc]
      show ((FVal.fin c).add (FVal.fin c).neg).mul
        ((FVal.fin c).add (FVal.fin c).neg) = FVal.fin 0
      show (FVal.fin (c + -c)).mul (FVal.fin (c + -c)) = FVal.fin 0
      rw [add_neg_cancel]
      show FVal.fin (0 * 0) = FVal.fin 0
      norm_num
    rw [hzero, div_fin_fin]
    have hlen1 : ((qs.length - 1 : ℕ) : ℚ) ≠ 0 := by
      exact Nat.cast_ne_zero.mpr (by omega)
    rw [if_neg hlen1]
    congr 1
    rw [zero_div]

theorem stdPos_allEq (qs : List ℚ) (c : ℚ) (h : ∀ x ∈ qs, x = c) :
    stdPos (qs.map FVal.fin) = false := by
  unfold stdPos
  rw [sampleVar_allEq qs c h]
  by_cases h1 : qs.length ≤ 1
  · rw [if_pos h1]
  · rw [if_neg h1]
    simp

theorem zScoreCol_allEq (qs : List ℚ) (c : ℚ) (h : ∀ x ∈ qs, x = c) :
    (zScoreCol (qs.map FVal.fin)).map ZVal.replaceInf =
      List.replicate qs.length ZVal.zero := by
  unfold zScoreCol
  rw [stdPos_allEq qs c h]
  simp only [Bool.false_eq_true, if_false, List.map_map]
  have hrep : ∀ t : List ℚ, t.map (fun _ : ℚ => ZVal.zero) =
      List.replicate t.length ZVal.zero := by
    intro t
    induction t with
    | nil => rfl
    | cons a s ih => simp [ih, List.replicate_succ]
  rw [show (ZVal.replaceInf ∘ (fun _ : FVal => ZVal.zero) ∘ FVal.fin) =
      (fun _ : ℚ => ZVal.zero) from funext fun _ => rfl]
  exact hrep qs

/-! ### Projections of the frame built on all-finite input -/

theorem mkFrame_finObs_value (obs : List (ℕ × ℚ)) :
    (mkFrame (finObs obs)).value = (sortedVals obs).map FVal.fin := by
  unfold mkFrame
  simp only [sorted_snd_finObs]
  rw [map_replaceInf_map_fin]

theorem mkFrame_finObs_date (obs : List (ℕ × ℚ)) :
    (mkFrame (finObs obs)).observation_date =
      (List.insertionSort dateLeQ obs).map Prod.fst := by
  unfold mkFrame
  simp only [sorted_fst_finObs]

theorem mkFrame_finObs_mom (obs : List (ℕ × ℚ)) :
    (mkFrame (finObs obs)).mom_change =
      (pctChange100 1 ((sortedVals obs).map FVal.fin)).map FVal.replaceInf := by
  unfold mkFrame
  simp only [sorted_snd_finObs]

theorem mkFrame_finObs_yoy (obs : List (ℕ × ℚ)) :
    (mkFrame (finObs obs)).yoy_change =
      (pctChange100 (yoyLag obs.length)
        ((sortedVals obs).map FVal.fin)).map FVal.replaceInf := by
  unfold mkFrame
  simp only [sorted_snd_finObs, List.length_insertionSort, length_finObs]

theorem mkFrame_finObs_roll3 (obs : List (ℕ × ℚ)) :
    (mkFrame (finObs obs)).rolling_avg_3m =
      (rollingMean 3 ((sortedVals obs).map FVal.fin)).map FVal.replaceInf := by
  unfold mkFrame
  simp only [sorted_snd_finObs]

theorem mkFrame_finObs_roll12 (obs : List (ℕ × ℚ)) :
    (mkFrame (finObs obs)).rolling_avg_12m =
      (rollingMean 12 ((sortedVals obs).map FVal.fin)).map FVal.replaceInf := by
  unfold mkFrame
  simp only [sorted_snd_finObs]

theorem mkFrame_finObs_z (obs : List (ℕ × ℚ)) :
    (mkFrame (finObs obs)).z_score =
      (zScoreCol ((sortedVals obs).map FVal.fin)).map ZVal.replaceInf := by
  unfold mkFrame
  simp only [sorted_snd_finObs]

theorem mkFrame_finObs_rank (obs : List (ℕ × ℚ)) :
    (mkFrame (finObs obs)).percentile_rank =
      (rankPct100 ((sortedVals obs).map FVal.fin)).map FVal.replaceInf := by
  unfold mkFrame
  simp only [sorted_snd_finObs]

/-! ### Column lengths -/

theorem length_pctChange100 (L : ℕ) (vs : List FVal) :
    (pctChange100 L vs).length = vs.length := by
  simp [pctChange100]

theorem length_rollingMean (w : ℕ) (vs : List FVal) :
    (rollingMean w vs).length = vs.length := by
  simp [rollingMean]

theorem length_zScoreCol (vs : List FVal) : (zScoreCol vs).length = vs.length := by
  unfold zScoreCol
  by_cases h : stdPos vs
  · rw [if_pos h, List.length_map]
  · rw [if_neg h, List.length_map]

theorem length_rankPct100 (vs : List FVal) : (rankPct100 vs).length = vs.length := by
  simp [rankPct100]

/-! ### Orchestrator counting -/

theorem run_full_pipeline_acc (l : List (Option (List (ℕ × FVal)))) :
    ∀ a b : ℕ,
      l.foldl (fun acc f => if process_series f then (acc.1 + 1, acc.2)
        else (acc.1, acc.2 + 1)) (a, b) =
      (a + (run_full_pipeline l).1, b + (run_full_pipeline l).2) := by
  induction l with
  | nil =>
    intro a b
    simp [run_full_pipeline]
  | cons x t ih =>
    intro a b
    unfold run_full_pipeline
    simp only [List.foldl_cons]
    cases hpx : process_series x
    · simp only [Bool.false_eq_true, if_false]
      rw [ih, ih]
      simp only [Prod.mk.injEq]
      omega
    · simp only [if_true]
      rw [ih, ih]
      simp only [Prod.mk.injEq]
      omega

theorem run_full_pipeline_append (l₁ l₂ : List (Option (List (ℕ × FVal)))) :
    run_full_pipeline (l₁ ++ l₂) =
      ((run_full_pipeline l₁).1 + (run_full_pipeline l₂).1,
       (run_full_pipeline l₁).2 + (run_full_pipeline l₂).2) := by
  show (l₁ ++ l₂).foldl _ (0, 0) = _
  rw [List.foldl_append]
  have h1 : l₁.foldl (fun acc f => if process_series f then (acc.1 + 1, acc.2)
      else (acc.1, acc.2 + 1)) (0, 0) =
      ((run_full_pipeline l₁).1, (run_full_pipeline l₁).2) := rfl
  rw [h1, run_full_pipeline_acc]

/-! ## The claims -/

/-- Claim C3: for every nonempty observation sequence, `transform_data`
returns a frame (never drops to the empty signal), and every column of that
frame has exactly as many rows as the input: the transform neither drops nor
adds rows. -/
theorem transform_data_preserves_length (obs : List (ℕ × FVal)) (hne : obs ≠ []) :
    transform_data (some obs) = some (mkFrame obs) ∧
    (mkFrame obs).observation_date.length = obs.length ∧
    (mkFrame obs).value.length = obs.length ∧
    (mkFrame obs).mom_change.length = obs.length ∧
    (mkFrame obs).yoy_change.length = obs.length ∧
    (mkFrame obs).rolling_avg_3m.length = obs.length ∧
    (mkFrame obs).rolling_avg_12m.length = obs.length ∧
    (mkFrame obs).z_score.length = obs.length ∧
    (mkFrame obs).percentile_rank.length = obs.length := by
  have hempty : obs.isEmpty = false := by
    cases obs with
    | nil => cases hne rfl
    | cons a t => rfl
  refine ⟨by simp [transform_data, hempty], ?_, ?_, ?_, ?_, ?_, ?_, ?_, ?_⟩ <;>
    simp [mkFrame, length_pctChange100, length_rollingMean, length_zScoreCol,
      length_rankPct100, List.length_insertionSort]

/-- Witness for C3 at a concrete one-row input. -/
theorem transform_data_preserves_length_witness :
    ([((0 : ℕ), FVal.fin 1)] ≠ []) ∧
      (mkFrame [((0 : ℕ), FVal.fin 1)]).value.length = [((0 : ℕ), FVal.fin 1)].length :=
  ⟨by decide, (transform_data_preserves_length [((0 : ℕ), FVal.fin 1)] (by decide)).2.2.1⟩

/-- Claim C5: in the output of `transform_data`, no derived column (and not
even the raw value column) ever holds a positive or negative infinity: the
final replacement step turns every infinity into the missing marker.  Stated
for an arbitrary input sequence, infinite and NaN raw values included. -/
theorem transform_data_no_infinity (obs : List (ℕ × FVal)) :
    ((mkFrame obs).value.all fun v => !v.isInf) = true ∧
    ((mkFrame obs).mom_change.all fun v => !v.isInf) = true ∧
    ((mkFrame obs).yoy_change.all fun v => !v.isInf) = true ∧
    ((mkFrame obs).rolling_avg_3m.all fun v => !v.isInf) = true ∧
    ((mkFrame obs).rolling_avg_12m.all fun v => !v.isInf) = true ∧
    ((mkFrame obs).z_score.all fun z => !z.isInf) = true ∧
    ((mkFrame obs).percentile_rank.all fun v => !v.isInf) = true := by
  refine ⟨?_, ?_, ?_, ?_, ?_, ?_, ?_⟩ <;>
    first
      | exact all_not_inf_map_replaceInf _
      | exact all_not_inf_map_zreplaceInf _

/-- Claim C8: an empty input yields the explicit empty-result signal `none`
rather than an error; `process_series` turns that signal into a per-series
failure outcome; and the orchestrator counts the failure and keeps
processing every remaining series: splicing an empty-input series anywhere
into a run adds exactly one failure and leaves every other tally unchanged. -/
theorem empty_input_is_counted_failure :
    transform_data (some ([] : List (ℕ × FVal))) = none ∧
    process_series (some ([] : List (ℕ × FVal))) = false ∧
    ∀ pre post : List (Option (List (ℕ × FVal))),
      run_full_pipeline (pre ++ some [] :: post) =
        ((run_full_pipeline pre).1 + (run_full_pipeline post).1,
         (run_full_pipeline pre).2 + 1 + (run_full_pipeline post).2) := by
  refine ⟨rfl, rfl, ?_⟩
  intro pre post
  rw [run_full_pipeline_append]
  have hmid : run_full_pipeline (some [] :: post) =
      ((run_full_pipeline post).1, 1 + (run_full_pipeline post).2) := by
    show (some [] :: post).foldl _ (0, 0) = _
    rw [List.foldl_cons]
    have hps : process_series (some ([] : List (ℕ × FVal))) = false := rfl
    rw [hps]
    simp only [Bool.false_eq_true, if_false]
    rw [run_full_pipeline_acc post 0 (0 + 1)]
    simp
  rw [hmid]
  simp [Nat.add_assoc, Nat.add_comm 1]

/-- Claim C9: the infinity replacement is applied to the whole frame, not
only the derived columns.  For all-finite input the `value` and
`observation_date` columns of the output are exactly the date-sorted input
columns, unchanged; and an input row whose raw value is infinite comes out
with its value replaced by the missing marker (concrete two-row input with a
positive-infinity raw value). -/
theorem replace_hits_whole_frame :
    (∀ obs : List (ℕ × ℚ),
      (mkFrame (finObs obs)).value = (sortedVals obs).map FVal.fin ∧
      (mkFrame (finObs obs)).observation_date =
        (List.insertionSort dateLeQ obs).map Prod.fst) ∧
    (mkFrame [((0 : ℕ), FVal.fin 1), ((1 : ℕ), FVal.pinf)]).value =
      [FVal.fin 1, FVal.nan] :=
  ⟨fun obs => ⟨mkFrame_finObs_value obs, mkFrame_finObs_date obs⟩, by decide⟩

theorem nmean_single (q : ℚ) : nmean [FVal.fin q] = FVal.fin q := by
  have h := nmean_map_fin [q] (by simp)
  simpa using h

/-- Claim C6: a single-observation series transforms to exactly one row with
`mom_change` and `yoy_change` missing, both rolling averages equal to the
value, `z_score` zero and `percentile_rank` 100. -/
theorem single_observation_frame (d : ℕ) (q : ℚ) :
    transform_data (some [(d, FVal.fin q)]) =
      some { observation_date := [d], value := [FVal.fin q],
             mom_change := [FVal.nan], yoy_change := [FVal.nan],
             rolling_avg_3m := [FVal.fin q], rolling_avg_12m := [FVal.fin q],
             z_score := [ZVal.zero], percentile_rank := [FVal.fin 100] } := by
  have htrans : transform_data (some [(d, FVal.fin q)]) =
      some (mkFrame [(d, FVal.fin q)]) := by
    simp [transform_data]
  rw [htrans]
  have hz : (zScoreCol [FVal.fin q]).map ZVal.replaceInf = [ZVal.zero] := by
    have h := zScoreCol_allEq [q] q (by simp)
    simpa using h
  unfold mkFrame
  simp only [Option.some.injEq]
  have hsort : List.insertionSort dateLe [(d, FVal.fin q)] = [(d, FVal.fin q)] := rfl
  rw [hsort]
  have hr1 : List.range 1 = [0] := rfl
  refine Frame.mk.injEq .. |>.mpr ⟨?_, ?_, ?_, ?_, ?_, ?_, ?_, ?_⟩
  · simp
  · simp [FVal.replaceInf]
  · simp [pctChange100, hr1, FVal.replaceInf]
  · simp [yoyLag, pctChange100, hr1, FVal.replaceInf]
  · simp [rollingMean, hr1, nmean_single, FVal.replaceInf]
  · simp [rollingMean, hr1, nmean_single, FVal.replaceInf]
  · simpa using hz
  · simp [rankPct100, List.countP_cons, flt_fin, feq_fin, FVal.isNan,
      List.filter, FVal.replaceInf]

theorem some_ite_nan_iff (c : Prop) [Decidable c] (e : ℚ) :
    (some (if c then FVal.nan else FVal.fin e) = some FVal.nan) ↔ c := by
  by_cases h : c
  · simp [h]
  · simp [h]

theorem finObs_isEmpty_false (obs : List (ℕ × ℚ)) (hne : obs ≠ []) :
    (finObs obs).isEmpty = false := by
  cases obs with
  | nil => cases hne rfl
  | cons a t => rfl

/-- Claim C1, counterexample to the claim as stated: with input values
`[0, 5]` the month-over-month change at row 1 is missing (the percent change
has a zero base, so the division yields an infinity which the final
replacement turns into the missing marker), although the claim asserts
`mom_change` is defined at every row `i ≥ 1`. -/
theorem mom_missing_beyond_row_zero :
    (mkFrame (finObs [((0 : ℕ), (0 : ℚ)), ((1 : ℕ), (5 : ℚ))])).mom_change[1]? =
      some FVal.nan := by
  decide

/-- Claim C1 as amended: `mom_change` is missing exactly at row 0 and at the
rows whose base value (the previous row) is zero, and `yoy_change` is
missing exactly at rows `0..L-1` and at the rows whose base value (`L` rows
back) is zero, `L` being 12 when the series has more than 12 observations
and 4 otherwise; at every other row both carry the percent-change formula
`(value[i] - value[i-L]) / value[i-L] * 100`. -/
theorem mom_yoy_missing_rows (obs : List (ℕ × ℚ)) (hne : obs ≠ []) (i : ℕ)
    (hi : i < obs.length) :
    transform_data (some (finObs obs)) = some (mkFrame (finObs obs)) ∧
    ((mkFrame (finObs obs)).mom_change[i]? = some FVal.nan ↔
      i = 0 ∨ (sortedVals obs).getD (i - 1) 0 = 0) ∧
    ((mkFrame (finObs obs)).yoy_change[i]? = some FVal.nan ↔
      i < yoyLag obs.length ∨ (sortedVals obs).getD (i - yoyLag obs.length) 0 = 0) ∧
    (i ≠ 0 → (sortedVals obs).getD (i - 1) 0 ≠ 0 →
      (mkFrame (finObs obs)).mom_change[i]? = some (FVal.fin
        (((sortedVals obs).getD i 0 - (sortedVals obs).getD (i - 1) 0) /
          (sortedVals obs).getD (i - 1) 0 * 100))) ∧
    (¬ i < yoyLag obs.length → (sortedVals obs).getD (i - yoyLag obs.length) 0 ≠ 0 →
      (mkFrame (finObs obs)).yoy_change[i]? = some (FVal.fin
        (((sortedVals obs).getD i 0 - (sortedVals obs).getD (i - yoyLag obs.length) 0) /
          (sortedVals obs).getD (i - yoyLag obs.length) 0 * 100))) := by
  have hq : (sortedVals obs).length = obs.length := length_sortedVals obs
  have hi2 : i < (sortedVals obs).length := by omega
  have hmom := pctChange100_fin_getElem 1 (sortedVals obs) i hi2
  have hyoy := pctChange100_fin_getElem (yoyLag obs.length) (sortedVals obs) i hi2
  refine ⟨by simp [transform_data, finObs_isEmpty_false obs hne], ?_, ?_, ?_, ?_⟩
  · rw [mkFrame_finObs_mom, hmom, some_ite_nan_iff]
    exact or_congr Nat.lt_one_iff Iff.rfl
  · rw [mkFrame_finObs_yoy, hyoy, some_ite_nan_iff]
  · intro hi0 hb
    rw [mkFrame_finObs_mom, hmom, if_neg (not_or.mpr ⟨by omega, hb⟩)]
    simp only [Option.some.injEq, FVal.fin.injEq]
    have hb2 : (sortedVals obs)[i - 1]?.getD 0 ≠ 0 := by
      rw [← List.getD_eq_getElem?_getD]
      exact hb
    field_simp
  · intro hiL hb
    rw [mkFrame_finObs_yoy, hyoy, if_neg (not_or.mpr ⟨hiL, hb⟩)]
    simp only [Option.some.injEq, FVal.fin.injEq]
    have hb2 : (sortedVals obs)[i - yoyLag obs.length]?.getD 0 ≠ 0 := by
      rw [← List.getD_eq_getElem?_getD]
      exact hb
    field_simp

/-- Witness for the amended C1 at the concrete input `[(0,1), (1,2)]`,
row 1. -/
theorem mom_yoy_missing_rows_witness :
    ([((0 : ℕ), (1 : ℚ)), ((1 : ℕ), (2 : ℚ))] ≠ []) ∧ 1 < 2 ∧
    ((mkFrame (finObs [((0 : ℕ), (1 : ℚ)), ((1 : ℕ), (2 : ℚ))])).mom_change[1]? =
        some FVal.nan ↔
      1 = 0 ∨ (sortedVals [((0 : ℕ), (1 : ℚ)), ((1 : ℕ), (2 : ℚ))]).getD 0 0 = 0) :=
  ⟨by decide, by decide,
    (mom_yoy_missing_rows [((0 : ℕ), (1 : ℚ)), ((1 : ℕ), (2 : ℚ))]
      (by decide) 1 (by decide)).2.1⟩

/-- Claim C4: both rolling averages are defined (a finite value, never the
missing marker) at every row including row 0, and equal the mean of the
trailing window `value[max(0, i+1-w) .. i]` (width 3 and 12 respectively;
`i + 1 - w` is truncated natural subtraction, which is exactly
`max(0, i-(w-1))`). -/
theorem rolling_avgs_defined (obs : List (ℕ × ℚ)) (hne : obs ≠ []) (i : ℕ)
    (hi : i < obs.length) :
    transform_data (some (finObs obs)) = some (mkFrame (finObs obs)) ∧
    (mkFrame (finObs obs)).rolling_avg_3m[i]? = some (FVal.fin
      ((((sortedVals obs).take (i + 1)).drop (i + 1 - 3)).sum /
        (((sortedVals obs).take (i + 1)).drop (i + 1 - 3)).length)) ∧
    (mkFrame (finObs obs)).rolling_avg_12m[i]? = some (FVal.fin
      ((((sortedVals obs).take (i + 1)).drop (i + 1 - 12)).sum /
        (((sortedVals obs).take (i + 1)).drop (i + 1 - 12)).length)) := by
  have hq : (sortedVals obs).length = obs.length := length_sortedVals obs
  have hi2 : i < (sortedVals obs).length := by omega
  refine ⟨by simp [transform_data, finObs_isEmpty_false obs hne], ?_, ?_⟩
  · rw [mkFrame_finObs_roll3]
    exact rollingMean_fin_getElem 3 (by norm_num) (sortedVals obs) i hi2
  · rw [mkFrame_finObs_roll12]
    exact rollingMean_fin_getElem 12 (by norm_num) (sortedVals obs) i hi2

/-- Witness for C4 at the concrete input `[(0,1), (1,2)]`, row 1. -/
theorem rolling_avgs_defined_witness :
    ([((0 : ℕ), (1 : ℚ)), ((1 : ℕ), (2 : ℚ))] ≠ []) ∧ 1 < 2 ∧
    (mkFrame (finObs [((0 : ℕ), (1 : ℚ)), ((1 : ℕ), (2 : ℚ))])).rolling_avg_3m[1]? =
      some (FVal.fin
        ((((sortedVals [((0 : ℕ), (1 : ℚ)), ((1 : ℕ), (2 : ℚ))]).take 2).drop 0).sum /
          (((sortedVals [((0 : ℕ), (1 : ℚ)), ((1 : ℕ), (2 : ℚ))]).take 2).drop 0).length)) :=
  ⟨by decide, by decide,
    (rolling_avgs_defined [((0 : ℕ), (1 : ℚ)), ((1 : ℕ), (2 : ℚ))]
      (by decide) 1 (by decide)).2.1⟩

theorem sortedVals_allEq (obs : List (ℕ × ℚ)) (c : ℚ) (hall : ∀ p ∈ obs, p.2 = c) :
    ∀ x ∈ sortedVals obs, x = c := by
  intro x hx
  rcases List.mem_map.mp hx with ⟨p, hp, hpx⟩
  have hpo : p ∈ obs := (List.perm_insertionSort dateLeQ obs).mem_iff.mp hp
  rw [← hpx]
  exact hall p hpo

/-- Claim C2, counterexample to the claim as stated: a two-row series with
both values equal to 5 gets `percentile_rank` 75 on every row, not 50 —
pandas assigns the tied pair average rank 1.5 out of 2, and
`1.5 / 2 * 100 = 75`. -/
theorem rank_col_five_five :
    (mkFrame (finObs [((0 : ℕ), (5 : ℚ)), ((1 : ℕ), (5 : ℚ))])).percentile_rank =
      [FVal.fin 75, FVal.fin 75] := by
  have hs : sortedVals [((0 : ℕ), (5 : ℚ)), ((1 : ℕ), (5 : ℚ))] = [5, 5] := by
    decide
  rw [mkFrame_finObs_rank, hs]
  norm_num [rankPct100, List.countP_cons, flt_fin, feq_fin, FVal.isNan,
    List.filter, FVal.replaceInf]

theorem allEq_rank_not_fifty :
    (mkFrame (finObs [((0 : ℕ), (5 : ℚ)), ((1 : ℕ), (5 : ℚ))])).percentile_rank =
        [FVal.fin 75, FVal.fin 75] ∧
      (mkFrame (finObs [((0 : ℕ), (5 : ℚ)), ((1 : ℕ), (5 : ℚ))])).percentile_rank ≠
        [FVal.fin 50, FVal.fin 50] := by
  refine ⟨rank_col_five_five, ?_⟩
  rw [rank_col_five_five]
  intro hcontra
  simp only [List.cons.injEq, FVal.fin.injEq] at hcontra
  norm_num at hcontra

/-- Claim C2 as amended: in an all-equal series of length `n`, `z_score` is
0 at every row (the zero-variance branch), and `percentile_rank` is
`50 * (n + 1) / n` at every row (the average rank of `n` tied values is
`(n + 1) / 2` out of `n`); this equals 50 only in the limit, not for any
finite `n`. -/
theorem allEq_zscore_zero_rank_uniform (obs : List (ℕ × ℚ)) (c : ℚ)
    (hne : obs ≠ []) (hall : ∀ p ∈ obs, p.2 = c) :
    transform_data (some (finObs obs)) = some (mkFrame (finObs obs)) ∧
    (mkFrame (finObs obs)).z_score = List.replicate obs.length ZVal.zero ∧
    ∀ i, i < obs.length → (mkFrame (finObs obs)).percentile_rank[i]? =
      some (FVal.fin (50 * ((obs.length : ℚ) + 1) / (obs.length : ℚ))) := by
  have hq := sortedVals_allEq obs c hall
  have hlen := length_sortedVals obs
  refine ⟨by simp [transform_data, finObs_isEmpty_false obs hne], ?_, ?_⟩
  · rw [mkFrame_finObs_z, zScoreCol_allEq (sortedVals obs) c hq, hlen]
  · intro i hi
    have hi2 : i < (sortedVals obs).length := by omega
    have hrank := rankPct100_fin_getElem (sortedVals obs) i hi2
    have hgd : (sortedVals obs).getD i 0 = c := by
      rw [List.getD_eq_getElem _ _ hi2]
      exact hq _ (List.getElem_mem hi2)
    rw [mkFrame_finObs_rank, hrank, hgd]
    have hc0 : (sortedVals obs).countP (fun u => decide (u < c)) = 0 := by
      rw [List.countP_eq_zero]
      intro a ha
      simp [hq a ha]
    have hcn : (sortedVals obs).countP (fun u => decide (u = c)) =
        (sortedVals obs).length := by
      rw [List.countP_eq_length]
      intro a ha
      simp [hq a ha]
    rw [hc0, hcn, hlen]
    simp only [Option.some.injEq, FVal.fin.injEq]
    have hn0 : (obs.length : ℚ) ≠ 0 := Nat.cast_ne_zero.mpr
      (fun h0 => hne (List.length_eq_zero.mp h0))
    push_cast
    field_simp
    ring

/-- Witness for the amended C2 at the concrete all-equal input
`[(0,5), (1,5)]`. -/
theorem allEq_zscore_zero_rank_uniform_witness :
    ([((0 : ℕ), (5 : ℚ)), ((1 : ℕ), (5 : ℚ))] ≠ []) ∧
    (∀ p ∈ [((0 : ℕ), (5 : ℚ)), ((1 : ℕ), (5 : ℚ))], p.2 = (5 : ℚ)) ∧
    (mkFrame (finObs [((0 : ℕ), (5 : ℚ)), ((1 : ℕ), (5 : ℚ))])).z_score =
      List.replicate 2 ZVal.zero :=
  ⟨by decide, by decide,
    (allEq_zscore_zero_rank_uniform [((0 : ℕ), (5 : ℚ)), ((1 : ℕ), (5 : ℚ))] 5
      (by decide) (by decide)).2.1⟩

/-- Claim C7, counterexample to the claim as stated: on the series
`[100, 110, 121]` the third 3-month rolling average is
`(100 + 110 + 121) / 3 = 331/3 = 110.333...`, not the exact decimal
`110.33` the claim states. -/
theorem roll3_col_concrete :
    (mkFrame (finObs [((0 : ℕ), (100 : ℚ)), ((1 : ℕ), (110 : ℚ)),
        ((2 : ℕ), (121 : ℚ))])).rolling_avg_3m =
      [FVal.fin 100, FVal.fin 105, FVal.fin (331 / 3)] := by
  have hs : sortedVals [((0 : ℕ), (100 : ℚ)), ((1 : ℕ), (110 : ℚ)),
      ((2 : ℕ), (121 : ℚ))] = [100, 110, 121] := by
    decide
  rw [mkFrame_finObs_roll3, hs]
  have hr3 : List.range 3 = [0, 1, 2] := rfl
  norm_num [rollingMean, hr3, nmean, fsum, List.filter, FVal.isNan,
    div_fin_fin, FVal.add, FVal.replaceInf]

theorem mom_col_concrete :
    (mkFrame (finObs [((0 : ℕ), (100 : ℚ)), ((1 : ℕ), (110 : ℚ)),
        ((2 : ℕ), (121 : ℚ))])).mom_change =
      [FVal.nan, FVal.fin 10, FVal.fin 10] := by
  have hs : sortedVals [((0 : ℕ), (100 : ℚ)), ((1 : ℕ), (110 : ℚ)),
      ((2 : ℕ), (121 : ℚ))] = [100, 110, 121] := by
    decide
  rw [mkFrame_finObs_mom, hs]
  have hr3 : List.range 3 = [0, 1, 2] := rfl
  norm_num [pctChange100, hr3, List.getD, div_fin_fin, FVal.sub, FVal.neg,
    FVal.add, FVal.mul, FVal.replaceInf]

theorem concrete_roll3_not_110_33 :
    (mkFrame (finObs [((0 : ℕ), (100 : ℚ)), ((1 : ℕ), (110 : ℚ)),
        ((2 : ℕ), (121 : ℚ))])).rolling_avg_3m ≠
      [FVal.fin 100, FVal.fin 105, FVal.fin (11033 / 100)] := by
  rw [roll3_col_concrete]
  intro hcontra
  simp only [List.cons.injEq, FVal.fin.injEq] at hcontra
  norm_num at hcontra

/-- Claim C7 as amended: on the series `[100, 110, 121]` over three
consecutive dates, `mom_change` is `[missing, 10, 10]` and `rolling_avg_3m`
is `[100, 105, 331/3]` (the last entry is `110.33` only after rounding to
two decimals). -/
theorem concrete_series_mom_roll :
    transform_data (some (finObs [((0 : ℕ), (100 : ℚ)), ((1 : ℕ), (110 : ℚ)),
        ((2 : ℕ), (121 : ℚ))])) =
      some (mkFrame (finObs [((0 : ℕ), (100 : ℚ)), ((1 : ℕ), (110 : ℚ)),
        ((2 : ℕ), (121 : ℚ))])) ∧
    (mkFrame (finObs [((0 : ℕ), (100 : ℚ)), ((1 : ℕ), (110 : ℚ)),
        ((2 : ℕ), (121 : ℚ))])).mom_change =
      [FVal.nan, FVal.fin 10, FVal.fin 10] ∧
    (mkFrame (finObs [((0 : ℕ), (100 : ℚ)), ((1 : ℕ), (110 : ℚ)),
        ((2 : ℕ), (121 : ℚ))])).rolling_avg_3m =
      [FVal.fin 100, FVal.fin 105, FVal.fin (331 / 3)] := by
  exact ⟨rfl, mom_col_concrete, roll3_col_concrete⟩

theorem countP_lt_add_countP_eq_le (qs : List ℚ) (v : ℚ) :
    qs.countP (fun u => decide (u < v)) + qs.countP (fun u => decide (u = v)) ≤
      qs.length := by
  induction qs with
  | nil => simp
  | cons a t ih =>
    simp only [List.countP_cons, List.length_cons]
    by_cases h1 : a < v
    · have h2 : ¬ a = v := fun he => absurd h1 (by rw [he]; exact lt_irrefl v)
      simp [h1, h2]
      omega
    · by_cases h2 : a = v
      · simp [h1, h2]
        omega
      · simp [h1, h2]
        omega

/-- Claim C10: every percentile rank produced on a nonempty all-finite
series of `n` observations is a finite rational in `(0, 100]`, bounded
below by `100 / n` — a rank of exactly 0 is never produced. -/
theorem percentile_rank_bounds (obs : List (ℕ × ℚ)) (_hne : obs ≠ []) (i : ℕ)
    (hi : i < obs.length) :
    ∃ q : ℚ, (mkFrame (finObs obs)).percentile_rank[i]? = some (FVal.fin q) ∧
      0 < q ∧ 100 / (obs.length : ℚ) ≤ q ∧ q ≤ 100 := by
  have hlen := length_sortedVals obs
  have hi2 : i < (sortedVals obs).length := by omega
  have hrank := rankPct100_fin_getElem (sortedVals obs) i hi2
  set v := (sortedVals obs).getD i 0 with hv
  set ltc := (sortedVals obs).countP (fun u => decide (u < v)) with hltc
  set eqc := (sortedVals obs).countP (fun u => decide (u = v)) with heqc
  have hn : 0 < (sortedVals obs).length := by omega
  have hnq : (0 : ℚ) < ((obs.length : ℕ) : ℚ) := by
    exact_mod_cast (by omega : 0 < obs.length)
  have hvm : v ∈ sortedVals obs := by
    rw [hv, List.getD_eq_getElem _ _ hi2]
    exact List.getElem_mem hi2
  have heq1 : 1 ≤ eqc := by
    have h0 : 0 < eqc := by
      rw [heqc, List.countP_pos_iff]
      exact ⟨v, hvm, by simp⟩
    omega
  have hsumle : ltc + eqc ≤ obs.length := by
    have := countP_lt_add_countP_eq_le (sortedVals obs) v
    omega
  have hlq : (0 : ℚ) ≤ (ltc : ℚ) := by positivity
  have heq1q : (1 : ℚ) ≤ (eqc : ℚ) := by exact_mod_cast heq1
  have hsumq : (ltc : ℚ) + (eqc : ℚ) ≤ ((obs.length : ℕ) : ℚ) := by
    exact_mod_cast hsumle
  have hA1 : (1 : ℚ) ≤ (ltc : ℚ) + ((eqc : ℚ) + 1) / 2 := by linarith
  have hAn : (ltc : ℚ) + ((eqc : ℚ) + 1) / 2 ≤ ((obs.length : ℕ) : ℚ) := by
    linarith
  refine ⟨((ltc : ℚ) + ((eqc : ℚ) + 1) / 2) / ((obs.length : ℕ) : ℚ) * 100,
    ?_, ?_, ?_, ?_⟩
  · rw [mkFrame_finObs_rank, hrank, hlen]
  · apply mul_pos (div_pos (by linarith) hnq) (by norm_num)
  · rw [div_mul_eq_mul_div, div_le_div_iff₀ hnq hnq]
    nlinarith
  · rw [div_mul_eq_mul_div, div_le_iff₀ hnq]
    nlinarith

/-- Witness for C10 at the concrete input `[(0,1), (1,2)]`, row 0. -/
theorem percentile_rank_bounds_witness :
    ([((0 : ℕ), (1 : ℚ)), ((1 : ℕ), (2 : ℚ))] ≠ []) ∧ 0 < 2 ∧
    ∃ q : ℚ, (mkFrame (finObs [((0 : ℕ), (1 : ℚ)),
        ((1 : ℕ), (2 : ℚ))])).percentile_rank[0]? = some (FVal.fin q) ∧
      0 < q ∧ 100 / ((2 : ℕ) : ℚ) ≤ q ∧ q ≤ 100 :=
  ⟨by decide, by decide,
    percentile_rank_bounds [((0 : ℕ), (1 : ℚ)), ((1 : ℕ), (2 : ℚ))]
      (by decide) 0 (by decide)⟩

end EconDashboard
